import Mathlib

/-!
Verification of the selective file-retention deletion utility
(`file_cleanup.py`: `load_config_file`, `should_keep_file`,
`delete_files_except`, `main`).

Embedding conventions.

Paths are modelled as lists of name components.  A `PyPath` mirrors a
Python `pathlib.Path` value: a flag saying whether the path is absolute
plus its components (as produced by `PurePath` parsing, which already
drops lone "." parts).  The filesystem is a finite set of absolute,
normalized directory paths and file paths (no symlinks; `Path.resolve`
on such a filesystem is pure component normalization).  Resolution can
still raise an OS error in Python; the `errOn` oracle of a `ResolveEnv`
models which raw absolute component lists error out when resolved, and
`resolvePyPath` returns `none` exactly there (the `try/except` around
`resolve()` in `should_keep_file`).

`os.walk(target, topdown=False)` is modelled by enumerating, from the
filesystem at the start of the pass, every file (first pass) or every
directory strictly below the target (second pass).  For the directory
pass the enumeration is ordered deepest-first, which is the one ordering
property `topdown=False` guarantees and that the code relies on
(children are evaluated before their parent).  `Path.unlink` on a
missing file and `Path.iterdir` on a missing directory raise; both are
modelled by the existence guards in the passes, which take the logged
error branch instead of mutating anything, exactly like the
`try/except` blocks in the source.  Deletions themselves are modelled
as always succeeding (no permission errors).
-/

namespace FileCleanup

/-- One component path list `d` is a strict initial segment (a proper
ancestor, as absolute normalized paths) of `e`. -/
def strictlyLeads : List String → List String → Bool
  | _, [] => false
  | [], _ :: _ => true
  | a :: as, b :: bs => a == b && strictlyLeads as bs

/-- A `pathlib.Path` value: absoluteness flag plus parsed components. -/
structure PyPath where
  absolute : Bool
  comps : List String
deriving DecidableEq, Repr

/-- Abbreviation for an absolute `PyPath` built from components. -/
def absPath (cs : List String) : PyPath := ⟨true, cs⟩

/-- Model of `Path.name`: the final component, or the empty string at the root. -/
def baseName (p : PyPath) : String := p.comps.getLast?.getD ""

/-- One step of `resolve()` normalization over reversed accumulated
components: "." is dropped, ".." pops (staying at the root when already
there), anything else is pushed. -/
def normStep (acc : List String) (c : String) : List String :=
  if c = "." then acc else if c = ".." then acc.tail else c :: acc

/-- Component normalization performed by `Path.resolve` on a
symlink-free filesystem. -/
def normComps (cs : List String) : List String :=
  (cs.foldl normStep []).reverse

/-- Ambient data `resolve()` depends on: the process working directory
and the oracle of raw absolute paths whose resolution raises an OS
error. -/
structure ResolveEnv where
  cwd : List String
  errOn : List String → Bool

/-- The raw absolute components of a path before normalization: a
relative path is interpreted against the working directory. -/
def rawComps (env : ResolveEnv) (p : PyPath) : List String :=
  if p.absolute then p.comps else env.cwd ++ p.comps

/-- Model of `Path.resolve()`: `none` models the raised OS error, otherwise the
normalized absolute components. -/
def resolvePyPath (env : ResolveEnv) (p : PyPath) : Option (List String) :=
  let raw := rawComps env p
  if env.errOn raw then none else some (normComps raw)

/-- Lines 59-63 of `should_keep_file`: a relative keep-directory entry
is re-based onto the target directory when one was given. -/
def absolutizeKeepDir (target? : Option (List String)) (kd : PyPath) : PyPath :=
  if !kd.absolute then
    match target? with
    | some t => ⟨true, t ++ kd.comps⟩
    | none => kd
  else kd

/-- Resolution of one keep-directory entry as performed inside the loop
of `should_keep_file` (re-base, then `resolve()`). -/
def resolveKeepEntry (env : ResolveEnv) (target? : Option (List String))
    (kd : PyPath) : Option (List String) :=
  resolvePyPath env (absolutizeKeepDir target? kd)

/-- Model of the `for keep_dir in keep_dirs` loop of `should_keep_file`: an
entry whose resolution (or whose paired resolution of the input path)
raises is skipped via `continue`; a resolved entry that equals the
resolved input path or is one of its `parents` returns `True`. -/
def keepDirLoop (env : ResolveEnv) (file_path : PyPath)
    (target? : Option (List String)) : List PyPath → Bool
  | [] => false
  | kd :: rest =>
    match resolveKeepEntry env target? kd, resolvePyPath env file_path with
    | some k, some f =>
      if strictlyLeads k f || f == k then true
      else keepDirLoop env file_path target? rest
    | some _, none => keepDirLoop env file_path target? rest
    | none, _ => keepDirLoop env file_path target? rest

/-- Model of `should_keep_file(file_path, keep_files, keep_dirs, target_dir)`:
keep when the base name is in `keep_files`, otherwise when some
keep-directory entry resolves to the resolved path or an ancestor of
it. -/
def should_keep_file (env : ResolveEnv) (file_path : PyPath)
    (keep_files : List String) (keep_dirs : List PyPath)
    (target? : Option (List String)) : Bool :=
  if baseName file_path ∈ keep_files then true
  else keepDirLoop env file_path target? keep_dirs

/-- The filesystem: finite sets (lists) of absolute normalized
directory paths and file paths. -/
structure FS where
  dirs : List (List String)
  files : List (List String)
deriving DecidableEq, Repr

/-- Test whether `e` is an immediate child path of directory `d`. -/
def childOf (e d : List String) : Bool := !e.isEmpty && e.dropLast == d

/-- Model of `not any(dir_path.iterdir())`: no file or directory is an immediate
child of `d`. -/
def isEmptyDir (fs : FS) (d : List String) : Bool :=
  fs.files.all (fun e => !childOf e d) && fs.dirs.all (fun e => !childOf e d)

/-- Effect of `Path.unlink` on file `p`. -/
def removeFile (fs : FS) (p : List String) : FS :=
  FS.mk fs.dirs (fs.files.filter (fun e => e ≠ p))

/-- Effect of `Path.rmdir` on directory `p`. -/
def removeDir (fs : FS) (p : List String) : FS :=
  FS.mk (fs.dirs.filter (fun e => e ≠ p)) fs.files

/-- Console output of one run, reduced to the events the spec talks
about. -/
inductive LogEvent where
  | targetMissing
  | fileCandidate (p : List String)
  | fileDeleted (p : List String)
  | fileError (p : List String)
  | dirCandidate (p : List String)
  | dirDeleted (p : List String)
  | dirError (p : List String)
deriving DecidableEq, Repr

/-- Outcome of one pass: the filesystem, the accumulated deletion list,
and the log, in chronological order. -/
structure PassResult where
  fs : FS
  deleted : List (List String)
  log : List LogEvent
deriving DecidableEq, Repr

/-- Phase 1 of `delete_files_except` (lines 104-117), folded over the
files enumerated by the walk: a kept file is skipped; in dry-run mode a
non-kept file is only logged; otherwise it is unlinked (a vanished file
makes `unlink` raise, which is caught and logged). -/
def deleteFilesPass (keeps : List String → Bool) (dry : Bool) :
    FS → List (List String) → PassResult
  | fs, [] => ⟨fs, [], []⟩
  | fs, f :: rest =>
    if keeps f then deleteFilesPass keeps dry fs rest
    else if dry then
      let r := deleteFilesPass keeps dry fs rest
      ⟨r.fs, r.deleted, .fileCandidate f :: r.log⟩
    else if f ∈ fs.files then
      let r := deleteFilesPass keeps dry (removeFile fs f) rest
      ⟨r.fs, f :: r.deleted, .fileDeleted f :: r.log⟩
    else
      let r := deleteFilesPass keeps dry fs rest
      ⟨r.fs, r.deleted, .fileError f :: r.log⟩

/-- Phase 2 of `delete_files_except` (lines 121-136), folded over the
directories of the walk, children before parents: a kept directory is
skipped; `iterdir` on a vanished directory raises (caught and logged);
a non-empty directory is silently skipped; an empty one is logged as a
candidate in dry-run mode and removed otherwise. -/
def deleteDirsPass (keeps : List String → Bool) (dry : Bool) :
    FS → List (List String) → PassResult
  | fs, [] => ⟨fs, [], []⟩
  | fs, d :: rest =>
    if keeps d then deleteDirsPass keeps dry fs rest
    else if d ∈ fs.dirs then
      if isEmptyDir fs d then
        if dry then
          let r := deleteDirsPass keeps dry fs rest
          ⟨r.fs, r.deleted, .dirCandidate d :: r.log⟩
        else
          let r := deleteDirsPass keeps dry (removeDir fs d) rest
          ⟨r.fs, d :: r.deleted, .dirDeleted d :: r.log⟩
      else deleteDirsPass keeps dry fs rest
    else
      let r := deleteDirsPass keeps dry fs rest
      ⟨r.fs, r.deleted, .dirError d :: r.log⟩

/-- The files yielded by `os.walk(target)`: every file strictly below
the target. -/
def filesUnder (fs : FS) (target : List String) : List (List String) :=
  fs.files.filter (fun f => strictlyLeads target f)

/-- Insertion into a list kept in non-increasing depth order. -/
def insertByLen (d : List String) : List (List String) → List (List String)
  | [] => [d]
  | e :: rest =>
    if e.length ≤ d.length then d :: e :: rest else e :: insertByLen d rest

/-- Insertion sort by non-increasing depth (deepest paths first). -/
def sortByLenDesc : List (List String) → List (List String)
  | [] => []
  | d :: rest => insertByLen d (sortByLenDesc rest)

/-- The directory entries yielded by `os.walk(target, topdown=False)`:
every directory strictly below the target (the walk root itself is
never an entry of a yielded `dirs` list), children before parents. -/
def dirsBottomUp (fs : FS) (target : List String) : List (List String) :=
  sortByLenDesc (fs.dirs.filter (fun d => strictlyLeads target d))

/-- The retention predicate as applied to a file of the walk
(line 108). -/
def keepsFilePath (env : ResolveEnv) (keep_files : List String)
    (keep_dirs : List PyPath) (target : List String) (p : List String) : Bool :=
  should_keep_file env (absPath p) keep_files keep_dirs (some target)

/-- The retention predicate as applied to a directory of the walk
(line 126): the name list passed is empty. -/
def keepsDirPath (env : ResolveEnv) (keep_dirs : List PyPath)
    (target : List String) (p : List String) : Bool :=
  should_keep_file env (absPath p) [] keep_dirs (some target)

/-- Result of a whole `delete_files_except` run. -/
structure RunResult where
  fs : FS
  deletedFiles : List (List String)
  deletedDirs : List (List String)
  log : List LogEvent
deriving DecidableEq, Repr

/-- Model of `delete_files_except(target_dir, keep_files, keep_dirs, dry_run)`
for an absolute normalized target: abort when the target path exists
neither as a directory nor as a file, otherwise run the file pass and
then the directory pass. -/
def delete_files_except (env : ResolveEnv) (fs : FS) (target : List String)
    (keep_files : List String) (keep_dirs : List PyPath) (dry_run : Bool) :
    RunResult :=
  if target ∈ fs.dirs ∨ target ∈ fs.files then
    let r1 := deleteFilesPass (keepsFilePath env keep_files keep_dirs target)
      dry_run fs (filesUnder fs target)
    let r2 := deleteDirsPass (keepsDirPath env keep_dirs target)
      dry_run r1.fs (dirsBottomUp r1.fs target)
    ⟨r2.fs, r1.deleted, r2.deleted, r1.log ++ r2.log⟩
  else ⟨fs, [], [], [.targetMissing]⟩

/-- The configuration document seen by `load_config_file`: missing
file, malformed JSON, any other read failure, or a parsed mapping whose
two keys are each optional. -/
inductive ConfigDoc where
  | missing
  | malformed
  | readErr
  | parsed (kf? : Option (List String)) (kd? : Option (List PyPath))
deriving DecidableEq

/-- The user-facing message printed by `load_config_file`. -/
inductive ConfigMsg where
  | loadedOk
  | notFoundMsg
  | parseErrMsg
  | readErrMsg
deriving DecidableEq

/-- Model of `load_config_file(config_path)`: on success the two lists with
missing keys defaulted to `[]`; every failure branch logs and returns
two empty lists. -/
def load_config_file : ConfigDoc → (List String × List PyPath) × ConfigMsg
  | .parsed kf? kd? => ((kf?.getD [], kd?.getD []), .loadedOk)
  | .missing => (([], []), .notFoundMsg)
  | .malformed => (([], []), .parseErrMsg)
  | .readErr => (([], []), .readErrMsg)

/-- The keep-list merge performed by `main` (lines 195-202): config
values are appended after the CLI values. -/
def mainKeepLists (cli_kf : List String) (cli_kd : List PyPath) :
    Option ConfigDoc → List String × List PyPath
  | some doc =>
    let loaded := (load_config_file doc).1
    (cli_kf ++ loaded.1, cli_kd ++ loaded.2)
  | none => (cli_kf, cli_kd)

/-- Model of `main` after a confirmed prompt: merge the keep-lists, then run
`delete_files_except`. -/
def mainRun (env : ResolveEnv) (fs : FS) (target : List String)
    (cli_kf : List String) (cli_kd : List PyPath)
    (config? : Option ConfigDoc) (dry_run : Bool) : RunResult :=
  let kl := mainKeepLists cli_kf cli_kd config?
  delete_files_except env fs target kl.1 kl.2 dry_run

/-- Well-formedness of the modelled filesystem: duplicate-free listings,
no path that is both a file and a directory, and every entry's parent
directory present (the root is the empty component list). -/
def WF (fs : FS) : Prop :=
  fs.dirs.Nodup ∧ fs.files.Nodup ∧
  (∀ f ∈ fs.files, f ∉ fs.dirs) ∧
  (∀ f ∈ fs.files, f ≠ [] ∧ f.dropLast ∈ fs.dirs) ∧
  (∀ d ∈ fs.dirs, d ≠ [] → d.dropLast ∈ fs.dirs)

instance (fs : FS) : Decidable (WF fs) := by
  unfold WF
  infer_instance

/-- A resolution environment in which no path errors out. -/
def env0 : ResolveEnv := ⟨[], fun _ => false⟩

/-- A resolution environment in which exactly the absolute path "/bad"
raises during resolution. -/
def envBad : ResolveEnv := ⟨[], fun raw => raw == ["bad"]⟩

/-- The tree of the spec's concrete scenario 1: files /t/A.txt,
/t/B.txt and /t/sub/C.txt. -/
def fs0 : FS :=
  ⟨[[], ["t"], ["t", "sub"]],
   [["t", "A.txt"], ["t", "B.txt"], ["t", "sub", "C.txt"]]⟩

end FileCleanup

namespace FileCleanup

/-! Basic facts about path ancestry. -/

theorem strictlyLeads_irrefl (l : List String) : strictlyLeads l l = false := by
  induction l with
  | nil => rfl
  | cons a as ih => simp [strictlyLeads, ih]

theorem strictlyLeads_length {d e : List String}
    (h : strictlyLeads d e = true) : d.length < e.length := by
  induction d generalizing e with
  | nil =>
    cases e with
    | nil => simp [strictlyLeads] at h
    | cons b bs => simp
  | cons a as ih =>
    cases e with
    | nil => simp [strictlyLeads] at h
    | cons b bs =>
      simp only [strictlyLeads, Bool.and_eq_true] at h
      have := ih h.2
      simpa using Nat.succ_lt_succ this

theorem strictlyLeads_append {d : List String} (r : List String)
    (h : r ≠ []) : strictlyLeads d (d ++ r) = true := by
  induction d with
  | nil =>
    cases r with
    | nil => exact absurd rfl h
    | cons b bs => simp [strictlyLeads]
  | cons a as ih => simpa [strictlyLeads] using ih

theorem strictlyLeads_exists {d e : List String}
    (h : strictlyLeads d e = true) : ∃ r, r ≠ [] ∧ e = d ++ r := by
  induction d generalizing e with
  | nil =>
    cases e with
    | nil => simp [strictlyLeads] at h
    | cons b bs => exact ⟨b :: bs, by simp, by simp⟩
  | cons a as ih =>
    cases e with
    | nil => simp [strictlyLeads] at h
    | cons b bs =>
      simp only [strictlyLeads, Bool.and_eq_true, beq_iff_eq] at h
      obtain ⟨rfl, h2⟩ := h
      obtain ⟨r, hr, rfl⟩ := ih h2
      exact ⟨r, hr, by simp⟩

theorem childOf_iff {e d : List String} :
    childOf e d = true ↔ e ≠ [] ∧ e.dropLast = d := by
  simp [childOf]

theorem childOf_length {e d : List String} (h : childOf e d = true) :
    e.length = d.length + 1 := by
  obtain ⟨hne, hpar⟩ := childOf_iff.mp h
  have h1 : e.dropLast.length = e.length - 1 := List.length_dropLast e
  have h2 : 0 < e.length := List.length_pos.mpr hne
  rw [hpar] at h1
  omega

theorem strictlyLeads_of_childOf {e d : List String}
    (h : childOf e d = true) : strictlyLeads d e = true := by
  obtain ⟨hne, hpar⟩ := childOf_iff.mp h
  have he : e.dropLast ++ [e.getLast hne] = e := List.dropLast_append_getLast hne
  rw [hpar] at he
  rw [← he]
  exact strictlyLeads_append _ (by simp)

theorem childOf_of_strictlyLeads_succ {d e : List String}
    (h : strictlyLeads d e = true) (hlen : e.length = d.length + 1) :
    childOf e d = true := by
  obtain ⟨r, hr, rfl⟩ := strictlyLeads_exists h
  have : r.length = 1 := by
    have := List.length_append d r
    omega
  obtain ⟨x, rfl⟩ : ∃ x, r = [x] := by
    cases r with
    | nil => simp at this
    | cons c cs =>
      cases cs with
      | nil => exact ⟨c, rfl⟩
      | cons c2 cs2 => simp at this
  refine childOf_iff.mpr ⟨by simp, ?_⟩
  exact List.dropLast_concat

theorem strictlyLeads_dropLast {d e : List String}
    (h : strictlyLeads d e = true) (hlen : d.length + 1 < e.length) :
    strictlyLeads d e.dropLast = true := by
  obtain ⟨r, hr, rfl⟩ := strictlyLeads_exists h
  cases r with
  | nil => exact absurd rfl hr
  | cons c cs =>
    cases cs with
    | nil =>
      have h2 : (d ++ [c]).length = d.length + 1 := by simp
      omega
    | cons c2 cs2 =>
      rw [List.dropLast_append_cons]
      exact strictlyLeads_append _ (by simp)

theorem isEmptyDir_iff {fs : FS} {d : List String} :
    isEmptyDir fs d = true ↔
      (∀ e ∈ fs.files, childOf e d = false) ∧
      (∀ e ∈ fs.dirs, childOf e d = false) := by
  simp [isEmptyDir, List.all_eq_true]

/-! Well-formedness is preserved by the two mutation primitives, and an
empty directory of a well-formed filesystem has no descendant entry at
any depth. -/

theorem WF_removeFile {fs : FS} (p : List String) (hwf : WF fs) :
    WF (removeFile fs p) := by
  obtain ⟨h1, h2, h3, h4, h5⟩ := hwf
  refine ⟨h1, h2.filter _, ?_, ?_, h5⟩
  · intro f hf
    exact h3 f (List.mem_of_mem_filter hf)
  · intro f hf
    exact h4 f (List.mem_of_mem_filter hf)

theorem WF_removeDir {fs : FS} {d : List String} (hwf : WF fs)
    (hemp : isEmptyDir fs d = true) : WF (removeDir fs d) := by
  obtain ⟨hemp1, hemp2⟩ := isEmptyDir_iff.mp hemp
  obtain ⟨h1, h2, h3, h4, h5⟩ := hwf
  refine ⟨h1.filter _, h2, ?_, ?_, ?_⟩
  · intro f hf hmem
    exact h3 f hf (List.mem_of_mem_filter hmem)
  · intro f hf
    obtain ⟨hne, hpar⟩ := h4 f hf
    refine ⟨hne, List.mem_filter.mpr ⟨hpar, ?_⟩⟩
    simp only [ne_eq, decide_eq_true_eq]
    intro hdl
    have hch : childOf f d = true := childOf_iff.mpr ⟨hne, hdl⟩
    rw [hemp1 f hf] at hch
    exact Bool.false_ne_true hch
  · intro e he hne
    have he' := List.mem_of_mem_filter he
    refine List.mem_filter.mpr ⟨h5 e he' hne, ?_⟩
    simp only [ne_eq, decide_eq_true_eq]
    intro hdl
    have hch : childOf e d = true := childOf_iff.mpr ⟨hne, hdl⟩
    rw [hemp2 e he'] at hch
    exact Bool.false_ne_true hch

theorem wf_empty_no_strictlyLeads {fs : FS} {d : List String} (hwf : WF fs)
    (hemp : isEmptyDir fs d = true) :
    ∀ e, (e ∈ fs.files ∨ e ∈ fs.dirs) → strictlyLeads d e = false := by
  obtain ⟨hemp1, hemp2⟩ := isEmptyDir_iff.mp hemp
  have main : ∀ n e, e.length = n → (e ∈ fs.files ∨ e ∈ fs.dirs) →
      strictlyLeads d e = false := by
    intro n
    induction n using Nat.strong_induction_on with
    | _ n ih =>
      intro e hlen hmem
      cases hq : strictlyLeads d e with
      | false => rfl
      | true =>
        exfalso
        have hdl : d.length < e.length := strictlyLeads_length hq
        by_cases hc : e.length = d.length + 1
        · have hch := childOf_of_strictlyLeads_succ hq hc
          rcases hmem with hf | hdd
          · rw [hemp1 e hf] at hch
            exact Bool.false_ne_true hch
          · rw [hemp2 e hdd] at hch
            exact Bool.false_ne_true hch
        · have hgt : d.length + 1 < e.length := by omega
          have hne : e ≠ [] := by
            intro hnil
            subst hnil
            simp at hdl
          have hmem' : e.dropLast ∈ fs.dirs := by
            rcases hmem with hf | hdd
            · exact (hwf.2.2.2.1 e hf).2
            · exact hwf.2.2.2.2 e hdd hne
          have h1 : strictlyLeads d e.dropLast = true :=
            strictlyLeads_dropLast hq hgt
          have h2 := ih (n - 1) (by omega) e.dropLast
            (by rw [List.length_dropLast]; omega) (Or.inr hmem')
          rw [h2] at h1
          exact Bool.false_ne_true h1
  intro e hmem
  exact main e.length e rfl hmem

/-! Equation lemmas for the two passes, one per branch of the source. -/

theorem deleteFilesPass_nil (K : List String → Bool) (dry : Bool) (fs : FS) :
    deleteFilesPass K dry fs [] = ⟨fs, [], []⟩ := rfl

theorem deleteFilesPass_cons_kept {K : List String → Bool} {f : List String}
    (dry : Bool) (fs : FS) (rest : List (List String)) (h : K f = true) :
    deleteFilesPass K dry fs (f :: rest) = deleteFilesPass K dry fs rest := by
  simp [deleteFilesPass, h]

theorem deleteFilesPass_cons_dry {K : List String → Bool} {f : List String}
    (fs : FS) (rest : List (List String)) (h : K f = false) :
    deleteFilesPass K true fs (f :: rest) =
      ⟨(deleteFilesPass K true fs rest).fs,
        (deleteFilesPass K true fs rest).deleted,
        .fileCandidate f :: (deleteFilesPass K true fs rest).log⟩ := by
  simp [deleteFilesPass, h]

theorem deleteFilesPass_cons_del {K : List String → Bool} {f : List String}
    {fs : FS} (rest : List (List String)) (h : K f = false)
    (hm : f ∈ fs.files) :
    deleteFilesPass K false fs (f :: rest) =
      ⟨(deleteFilesPass K false (removeFile fs f) rest).fs,
        f :: (deleteFilesPass K false (removeFile fs f) rest).deleted,
        .fileDeleted f :: (deleteFilesPass K false (removeFile fs f) rest).log⟩ := by
  simp [deleteFilesPass, h, hm]

theorem deleteFilesPass_cons_err {K : List String → Bool} {f : List String}
    {fs : FS} (rest : List (List String)) (h : K f = false)
    (hm : f ∉ fs.files) :
    deleteFilesPass K false fs (f :: rest) =
      ⟨(deleteFilesPass K false fs rest).fs,
        (deleteFilesPass K false fs rest).deleted,
        .fileError f :: (deleteFilesPass K false fs rest).log⟩ := by
  simp [deleteFilesPass, h, hm]

theorem deleteDirsPass_nil (K : List String → Bool) (dry : Bool) (fs : FS) :
    deleteDirsPass K dry fs [] = ⟨fs, [], []⟩ := rfl

theorem deleteDirsPass_cons_kept {K : List String → Bool} {d : List String}
    (dry : Bool) (fs : FS) (rest : List (List String)) (h : K d = true) :
    deleteDirsPass K dry fs (d :: rest) = deleteDirsPass K dry fs rest := by
  simp [deleteDirsPass, h]

theorem deleteDirsPass_cons_missing {K : List String → Bool} {d : List String}
    {fs : FS} (dry : Bool) (rest : List (List String)) (h : K d = false)
    (hm : d ∉ fs.dirs) :
    deleteDirsPass K dry fs (d :: rest) =
      ⟨(deleteDirsPass K dry fs rest).fs,
        (deleteDirsPass K dry fs rest).deleted,
        .dirError d :: (deleteDirsPass K dry fs rest).log⟩ := by
  simp [deleteDirsPass, h, hm]

theorem deleteDirsPass_cons_nonempty {K : List String → Bool} {d : List String}
    {fs : FS} (dry : Bool) (rest : List (List String)) (h : K d = false)
    (hm : d ∈ fs.dirs) (he : isEmptyDir fs d = false) :
    deleteDirsPass K dry fs (d :: rest) = deleteDirsPass K dry fs rest := by
  simp [deleteDirsPass, h, hm, he]

theorem deleteDirsPass_cons_dry {K : List String → Bool} {d : List String}
    {fs : FS} (rest : List (List String)) (h : K d = false)
    (hm : d ∈ fs.dirs) (he : isEmptyDir fs d = true) :
    deleteDirsPass K true fs (d :: rest) =
      ⟨(deleteDirsPass K true fs rest).fs,
        (deleteDirsPass K true fs rest).deleted,
        .dirCandidate d :: (deleteDirsPass K true fs rest).log⟩ := by
  simp [deleteDirsPass, h, hm, he]

theorem deleteDirsPass_cons_del {K : List String → Bool} {d : List String}
    {fs : FS} (rest : List (List String)) (h : K d = false)
    (hm : d ∈ fs.dirs) (he : isEmptyDir fs d = true) :
    deleteDirsPass K false fs (d :: rest) =
      ⟨(deleteDirsPass K false (removeDir fs d) rest).fs,
        d :: (deleteDirsPass K false (removeDir fs d) rest).deleted,
        .dirDeleted d :: (deleteDirsPass K false (removeDir fs d) rest).log⟩ := by
  simp [deleteDirsPass, h, hm, he]

/-! Structural invariants of the file pass. -/

theorem deleteFilesPass_fs_dirs (K : List String → Bool) (dry : Bool) :
    ∀ (l : List (List String)) (fs : FS),
      (deleteFilesPass K dry fs l).fs.dirs = fs.dirs := by
  intro l
  induction l with
  | nil => intro fs; rfl
  | cons f rest ih =>
    intro fs
    by_cases h : K f = true
    · rw [deleteFilesPass_cons_kept dry fs rest h]
      exact ih fs
    · rw [Bool.not_eq_true] at h
      cases dry with
      | true =>
        rw [deleteFilesPass_cons_dry fs rest h]
        exact ih fs
      | false =>
        by_cases hm : f ∈ fs.files
        · rw [deleteFilesPass_cons_del rest h hm]
          have := ih (removeFile fs f)
          simpa [removeFile] using this
        · rw [deleteFilesPass_cons_err rest h hm]
          exact ih fs

theorem deleteFilesPass_dry_noop (K : List String → Bool) :
    ∀ (l : List (List String)) (fs : FS),
      (deleteFilesPass K true fs l).fs = fs ∧
      (deleteFilesPass K true fs l).deleted = [] := by
  intro l
  induction l with
  | nil => intro fs; exact ⟨rfl, rfl⟩
  | cons f rest ih =>
    intro fs
    by_cases h : K f = true
    · rw [deleteFilesPass_cons_kept true fs rest h]
      exact ih fs
    · rw [Bool.not_eq_true] at h
      rw [deleteFilesPass_cons_dry fs rest h]
      exact ih fs

theorem deleteFilesPass_files_subset (K : List String → Bool) (dry : Bool) :
    ∀ (l : List (List String)) (fs : FS),
      (deleteFilesPass K dry fs l).fs.files ⊆ fs.files := by
  intro l
  induction l with
  | nil => intro fs; exact fun a ha => ha
  | cons f rest ih =>
    intro fs
    by_cases h : K f = true
    · rw [deleteFilesPass_cons_kept dry fs rest h]
      exact ih fs
    · rw [Bool.not_eq_true] at h
      cases dry with
      | true =>
        rw [deleteFilesPass_cons_dry fs rest h]
        exact ih fs
      | false =>
        by_cases hm : f ∈ fs.files
        · rw [deleteFilesPass_cons_del rest h hm]
          intro a ha
          have := ih (removeFile fs f) ha
          exact List.mem_of_mem_filter this
        · rw [deleteFilesPass_cons_err rest h hm]
          exact ih fs

theorem deleteFilesPass_survives (K : List String → Bool) (dry : Bool) :
    ∀ (l : List (List String)) (fs : FS) (p : List String),
      p ∈ fs.files → p ∉ l →
      p ∈ (deleteFilesPass K dry fs l).fs.files := by
  intro l
  induction l with
  | nil => intro fs p hp _; exact hp
  | cons f rest ih =>
    intro fs p hp hnl
    have hpf : p ≠ f := fun hc => hnl (hc ▸ List.mem_cons_self f rest)
    have hnr : p ∉ rest := fun hc => hnl (List.mem_cons_of_mem f hc)
    by_cases h : K f = true
    · rw [deleteFilesPass_cons_kept dry fs rest h]
      exact ih fs p hp hnr
    · rw [Bool.not_eq_true] at h
      cases dry with
      | true =>
        rw [deleteFilesPass_cons_dry fs rest h]
        exact ih fs p hp hnr
      | false =>
        by_cases hm : f ∈ fs.files
        · rw [deleteFilesPass_cons_del rest h hm]
          refine ih (removeFile fs f) p ?_ hnr
          exact List.mem_filter.mpr ⟨hp, by simpa using hpf⟩
        · rw [deleteFilesPass_cons_err rest h hm]
          exact ih fs p hp hnr

theorem deleteFilesPass_kept_survivors (K : List String → Bool)
    (t : List String) :
    ∀ (l : List (List String)) (fs : FS),
      (∀ f ∈ fs.files, strictlyLeads t f = true → K f = true ∨ f ∈ l) →
      ∀ f ∈ (deleteFilesPass K false fs l).fs.files,
        strictlyLeads t f = true → K f = true := by
  intro l
  induction l with
  | nil =>
    intro fs hinit f hf hU
    rcases hinit f hf hU with hK | hmem
    · exact hK
    · exact absurd hmem (List.not_mem_nil f)
  | cons f0 rest ih =>
    intro fs hinit
    by_cases h : K f0 = true
    · rw [deleteFilesPass_cons_kept false fs rest h]
      refine ih fs ?_
      intro f hf hU
      rcases hinit f hf hU with hK | hmem
      · exact Or.inl hK
      · rcases List.mem_cons.mp hmem with rfl | hr
        · exact Or.inl h
        · exact Or.inr hr
    · rw [Bool.not_eq_true] at h
      by_cases hm : f0 ∈ fs.files
      · rw [deleteFilesPass_cons_del rest h hm]
        refine ih (removeFile fs f0) ?_
        intro f hf hU
        have hf' : f ∈ fs.files := List.mem_of_mem_filter hf
        have hne : f ≠ f0 := by
          have := List.mem_filter.mp hf
          simpa using this.2
        rcases hinit f hf' hU with hK | hmem
        · exact Or.inl hK
        · rcases List.mem_cons.mp hmem with rfl | hr
          · exact absurd rfl hne
          · exact Or.inr hr
      · rw [deleteFilesPass_cons_err rest h hm]
        refine ih fs ?_
        intro f hf hU
        rcases hinit f hf hU with hK | hmem
        · exact Or.inl hK
        · rcases List.mem_cons.mp hmem with rfl | hr
          · exact absurd hf hm
          · exact Or.inr hr

theorem deleteFilesPass_noop (K : List String → Bool) (dry : Bool) :
    ∀ (l : List (List String)) (fs : FS),
      (∀ f ∈ l, K f = true) →
      deleteFilesPass K dry fs l = ⟨fs, [], []⟩ := by
  intro l
  induction l with
  | nil => intro fs _; rfl
  | cons f rest ih =>
    intro fs hall
    rw [deleteFilesPass_cons_kept dry fs rest (hall f (List.mem_cons_self f rest))]
    exact ih fs (fun g hg => hall g (List.mem_cons_of_mem f hg))

/-! Structural invariants of the directory pass. -/

theorem deleteDirsPass_fs_files (K : List String → Bool) (dry : Bool) :
    ∀ (l : List (List String)) (fs : FS),
      (deleteDirsPass K dry fs l).fs.files = fs.files := by
  intro l
  induction l with
  | nil => intro fs; rfl
  | cons d rest ih =>
    intro fs
    by_cases h : K d = true
    · rw [deleteDirsPass_cons_kept dry fs rest h]
      exact ih fs
    · rw [Bool.not_eq_true] at h
      by_cases hm : d ∈ fs.dirs
      · by_cases he : isEmptyDir fs d = true
        · cases dry with
          | true =>
            rw [deleteDirsPass_cons_dry rest h hm he]
            exact ih fs
          | false =>
            rw [deleteDirsPass_cons_del rest h hm he]
            have := ih (removeDir fs d)
            simpa [removeDir] using this
        · rw [Bool.not_eq_true] at he
          rw [deleteDirsPass_cons_nonempty dry rest h hm he]
          exact ih fs
      · rw [deleteDirsPass_cons_missing dry rest h hm]
        exact ih fs

theorem deleteDirsPass_dirs_subset (K : List String → Bool) (dry : Bool) :
    ∀ (l : List (List String)) (fs : FS),
      (deleteDirsPass K dry fs l).fs.dirs ⊆ fs.dirs := by
  intro l
  induction l with
  | nil => intro fs; exact fun a ha => ha
  | cons d rest ih =>
    intro fs
    by_cases h : K d = true
    · rw [deleteDirsPass_cons_kept dry fs rest h]
      exact ih fs
    · rw [Bool.not_eq_true] at h
      by_cases hm : d ∈ fs.dirs
      · by_cases he : isEmptyDir fs d = true
        · cases dry with
          | true =>
            rw [deleteDirsPass_cons_dry rest h hm he]
            exact ih fs
          | false =>
            rw [deleteDirsPass_cons_del rest h hm he]
            intro a ha
            have := ih (removeDir fs d) ha
            exact List.mem_of_mem_filter this
        · rw [Bool.not_eq_true] at he
          rw [deleteDirsPass_cons_nonempty dry rest h hm he]
          exact ih fs
      · rw [deleteDirsPass_cons_missing dry rest h hm]
        exact ih fs

theorem deleteDirsPass_dry_noop (K : List String → Bool) :
    ∀ (l : List (List String)) (fs : FS),
      (deleteDirsPass K true fs l).fs = fs ∧
      (deleteDirsPass K true fs l).deleted = [] := by
  intro l
  induction l with
  | nil => intro fs; exact ⟨rfl, rfl⟩
  | cons d rest ih =>
    intro fs
    by_cases h : K d = true
    · rw [deleteDirsPass_cons_kept true fs rest h]
      exact ih fs
    · rw [Bool.not_eq_true] at h
      by_cases hm : d ∈ fs.dirs
      · by_cases he : isEmptyDir fs d = true
        · rw [deleteDirsPass_cons_dry rest h hm he]
          exact ih fs
        · rw [Bool.not_eq_true] at he
          rw [deleteDirsPass_cons_nonempty true rest h hm he]
          exact ih fs
      · rw [deleteDirsPass_cons_missing true rest h hm]
        exact ih fs

theorem deleteDirsPass_survives (K : List String → Bool) (dry : Bool) :
    ∀ (l : List (List String)) (fs : FS) (p : List String),
      p ∈ fs.dirs → p ∉ l →
      p ∈ (deleteDirsPass K dry fs l).fs.dirs := by
  intro l
  induction l with
  | nil => intro fs p hp _; exact hp
  | cons d rest ih =>
    intro fs p hp hnl
    have hpd : p ≠ d := fun hc => hnl (hc ▸ List.mem_cons_self d rest)
    have hnr : p ∉ rest := fun hc => hnl (List.mem_cons_of_mem d hc)
    by_cases h : K d = true
    · rw [deleteDirsPass_cons_kept dry fs rest h]
      exact ih fs p hp hnr
    · rw [Bool.not_eq_true] at h
      by_cases hm : d ∈ fs.dirs
      · by_cases he : isEmptyDir fs d = true
        · cases dry with
          | true =>
            rw [deleteDirsPass_cons_dry rest h hm he]
            exact ih fs p hp hnr
          | false =>
            rw [deleteDirsPass_cons_del rest h hm he]
            refine ih (removeDir fs d) p ?_ hnr
            exact List.mem_filter.mpr ⟨hp, by simpa using hpd⟩
        · rw [Bool.not_eq_true] at he
          rw [deleteDirsPass_cons_nonempty dry rest h hm he]
          exact ih fs p hp hnr
      · rw [deleteDirsPass_cons_missing dry rest h hm]
        exact ih fs p hp hnr

theorem deleteDirsPass_noop (K : List String → Bool) (dry : Bool) :
    ∀ (l : List (List String)) (fs : FS),
      (∀ d ∈ l, K d = true ∨ (d ∈ fs.dirs → isEmptyDir fs d = false)) →
      (deleteDirsPass K dry fs l).fs = fs ∧
      (deleteDirsPass K dry fs l).deleted = [] := by
  intro l
  induction l with
  | nil => intro fs _; exact ⟨rfl, rfl⟩
  | cons d rest ih =>
    intro fs hall
    have hrest : ∀ e ∈ rest, K e = true ∨ (e ∈ fs.dirs → isEmptyDir fs e = false) :=
      fun e he => hall e (List.mem_cons_of_mem d he)
    by_cases h : K d = true
    · rw [deleteDirsPass_cons_kept dry fs rest h]
      exact ih fs hrest
    · rw [Bool.not_eq_true] at h
      rcases hall d (List.mem_cons_self d rest) with hK | himp
      · rw [hK] at h
        exact absurd h (by simp)
      · by_cases hm : d ∈ fs.dirs
        · have he := himp hm
          rw [deleteDirsPass_cons_nonempty dry rest h hm he]
          exact ih fs hrest
        · rw [deleteDirsPass_cons_missing dry rest h hm]
          exact ih fs hrest

/-! Emptiness witnesses. -/

theorem not_isEmptyDir_exists {fs : FS} {d : List String}
    (h : isEmptyDir fs d = false) :
    ∃ e, (e ∈ fs.files ∨ e ∈ fs.dirs) ∧ childOf e d = true := by
  by_contra hc
  push_neg at hc
  have : isEmptyDir fs d = true := by
    refine isEmptyDir_iff.mpr ⟨?_, ?_⟩
    · intro e he
      have := hc e (Or.inl he)
      exact Bool.not_eq_true _ ▸ this
    · intro e he
      have := hc e (Or.inr he)
      exact Bool.not_eq_true _ ▸ this
  rw [h] at this
  exact Bool.false_ne_true this

theorem isEmptyDir_eq_false_of_child {fs : FS} {d e : List String}
    (hmem : e ∈ fs.files ∨ e ∈ fs.dirs) (hch : childOf e d = true) :
    isEmptyDir fs d = false := by
  cases hq : isEmptyDir fs d with
  | false => rfl
  | true =>
    exfalso
    obtain ⟨h1, h2⟩ := isEmptyDir_iff.mp hq
    rcases hmem with hf | hd
    · rw [h1 e hf] at hch
      exact Bool.false_ne_true hch
    · rw [h2 e hd] at hch
      exact Bool.false_ne_true hch

/-! Main lemma for claim C1: a directory appended to the deletion list
was empty when removed, so (well-formedness preserved along the run) no
entry of the final filesystem lies strictly below it. -/

theorem deleteDirsPass_deleted_no_strict (K : List String → Bool) (dry : Bool) :
    ∀ (l : List (List String)) (fs : FS), WF fs →
      ∀ d ∈ (deleteDirsPass K dry fs l).deleted,
        ∀ e, (e ∈ (deleteDirsPass K dry fs l).fs.files ∨
              e ∈ (deleteDirsPass K dry fs l).fs.dirs) →
          strictlyLeads d e = false := by
  intro l
  induction l with
  | nil =>
    intro fs _ d hd
    exact absurd hd (List.not_mem_nil d)
  | cons d0 rest ih =>
    intro fs hwf
    by_cases h : K d0 = true
    · rw [deleteDirsPass_cons_kept dry fs rest h]
      exact ih fs hwf
    · rw [Bool.not_eq_true] at h
      by_cases hm : d0 ∈ fs.dirs
      · by_cases he : isEmptyDir fs d0 = true
        · cases dry with
          | true =>
            rw [deleteDirsPass_cons_dry rest h hm he]
            exact ih fs hwf
          | false =>
            rw [deleteDirsPass_cons_del rest h hm he]
            intro d hd e hmem
            have hmem' : e ∈ (deleteDirsPass K false (removeDir fs d0) rest).fs.files ∨
                e ∈ (deleteDirsPass K false (removeDir fs d0) rest).fs.dirs := hmem
            rcases List.mem_cons.mp hd with rfl | hdr
            · refine wf_empty_no_strictlyLeads hwf he e ?_
              rcases hmem' with hf | hdd
              · rw [deleteDirsPass_fs_files] at hf
                have : e ∈ fs.files := by simpa [removeDir] using hf
                exact Or.inl this
              · have h1 := deleteDirsPass_dirs_subset K false rest (removeDir fs d) hdd
                exact Or.inr (List.mem_of_mem_filter h1)
            · exact ih (removeDir fs d0) (WF_removeDir hwf he) d hdr e hmem'
        · rw [Bool.not_eq_true] at he
          rw [deleteDirsPass_cons_nonempty dry rest h hm he]
          exact ih fs hwf
      · rw [deleteDirsPass_cons_missing dry rest h hm]
        exact ih fs hwf

/-! Main lemma for claim C6: after a destructive directory pass over a
deepest-first enumeration, every surviving non-kept directory of the
enumeration is still non-empty. -/

theorem deleteDirsPass_nonkept_nonempty (K : List String → Bool) :
    ∀ (l : List (List String)),
      List.Pairwise (fun a b => b.length ≤ a.length) l →
      ∀ (fs : FS) (d : List String), d ∈ l → K d = false →
        d ∈ (deleteDirsPass K false fs l).fs.dirs →
        isEmptyDir (deleteDirsPass K false fs l).fs d = false := by
  intro l
  induction l with
  | nil =>
    intro _ fs d hd
    exact absurd hd (List.not_mem_nil d)
  | cons d0 rest ih =>
    intro hpw fs d hd hK hdfin
    obtain ⟨hbound, hpw'⟩ := List.pairwise_cons.mp hpw
    by_cases h : K d0 = true
    · rw [deleteDirsPass_cons_kept false fs rest h] at hdfin ⊢
      rcases List.mem_cons.mp hd with rfl | hdr
      · rw [h] at hK
        exact absurd hK (by simp)
      · exact ih hpw' fs d hdr hK hdfin
    · rw [Bool.not_eq_true] at h
      by_cases hm : d0 ∈ fs.dirs
      · by_cases he : isEmptyDir fs d0 = true
        · rw [deleteDirsPass_cons_del rest h hm he] at hdfin ⊢
          rcases List.mem_cons.mp hd with rfl | hdr
          · exfalso
            have hsub := deleteDirsPass_dirs_subset K false rest
              (removeDir fs d) hdfin
            simp [removeDir] at hsub
          · exact ih hpw' (removeDir fs d0) d hdr hK hdfin
        · rw [Bool.not_eq_true] at he
          rw [deleteDirsPass_cons_nonempty false rest h hm he] at hdfin ⊢
          rcases List.mem_cons.mp hd with rfl | hdr
          · obtain ⟨e, hemem, hch⟩ := not_isEmptyDir_exists he
            have hlen : e.length = d.length + 1 := childOf_length hch
            rcases hemem with hf | hdd
            · refine isEmptyDir_eq_false_of_child (Or.inl ?_) hch
              rw [deleteDirsPass_fs_files]
              exact hf
            · have hnotrest : e ∉ rest := by
                intro hc
                have := hbound e hc
                omega
              refine isEmptyDir_eq_false_of_child (Or.inr ?_) hch
              exact deleteDirsPass_survives K false rest fs e hdd hnotrest
          · exact ih hpw' fs d hdr hK hdfin
      · rw [deleteDirsPass_cons_missing false rest h hm] at hdfin ⊢
        rcases List.mem_cons.mp hd with rfl | hdr
        · exfalso
          exact hm (deleteDirsPass_dirs_subset K false rest fs hdfin)
        · exact ih hpw' fs d hdr hK hdfin

/-! Facts about the walk enumerations. -/

theorem mem_filesUnder {fs : FS} {target f : List String} :
    f ∈ filesUnder fs target ↔
      f ∈ fs.files ∧ strictlyLeads target f = true := by
  simp [filesUnder, List.mem_filter]

theorem mem_insertByLen {d x : List String} :
    ∀ l : List (List String), x ∈ insertByLen d l ↔ x = d ∨ x ∈ l := by
  intro l
  induction l with
  | nil => simp [insertByLen]
  | cons e rest ih =>
    simp only [insertByLen]
    by_cases h : e.length ≤ d.length
    · rw [if_pos h]
      simp [List.mem_cons]
    · rw [if_neg h]
      simp only [List.mem_cons, ih]
      tauto

theorem mem_sortByLenDesc {x : List String} :
    ∀ l : List (List String), x ∈ sortByLenDesc l ↔ x ∈ l := by
  intro l
  induction l with
  | nil => simp [sortByLenDesc]
  | cons e rest ih =>
    simp only [sortByLenDesc, mem_insertByLen, ih, List.mem_cons]

theorem pairwise_insertByLen {d : List String} :
    ∀ l : List (List String),
      List.Pairwise (fun a b : List String => b.length ≤ a.length) l →
      List.Pairwise (fun a b : List String => b.length ≤ a.length)
        (insertByLen d l) := by
  intro l
  induction l with
  | nil =>
    intro _
    simp [insertByLen]
  | cons e rest ih =>
    intro hpw
    obtain ⟨hbound, hpw'⟩ := List.pairwise_cons.mp hpw
    simp only [insertByLen]
    by_cases h : e.length ≤ d.length
    · rw [if_pos h]
      refine List.pairwise_cons.mpr ⟨?_, hpw⟩
      intro x hx
      rcases List.mem_cons.mp hx with rfl | hr
      · exact h
      · exact le_trans (hbound x hr) h
    · rw [if_neg h]
      refine List.pairwise_cons.mpr ⟨?_, ih hpw'⟩
      intro x hx
      rcases (mem_insertByLen rest).mp hx with rfl | hr
      · omega
      · exact hbound x hr

theorem pairwise_sortByLenDesc :
    ∀ l : List (List String),
      List.Pairwise (fun a b : List String => b.length ≤ a.length)
        (sortByLenDesc l) := by
  intro l
  induction l with
  | nil => simp [sortByLenDesc]
  | cons e rest ih => exact pairwise_insertByLen (sortByLenDesc rest) ih

theorem mem_dirsBottomUp {fs : FS} {target d : List String} :
    d ∈ dirsBottomUp fs target ↔
      d ∈ fs.dirs ∧ strictlyLeads target d = true := by
  rw [dirsBottomUp, mem_sortByLenDesc, List.mem_filter]

theorem dirsBottomUp_sorted (fs : FS) (target : List String) :
    List.Pairwise (fun a b : List String => b.length ≤ a.length)
      (dirsBottomUp fs target) :=
  pairwise_sortByLenDesc (fs.dirs.filter (fun d => strictlyLeads target d))

/-! Facts about the retention predicate. -/

theorem keepDirLoop_of_match (env : ResolveEnv) (p : PyPath)
    (t? : Option (List String)) :
    ∀ (l : List PyPath) (d : PyPath), d ∈ l →
      ∀ (rd rp : List String),
        resolveKeepEntry env t? d = some rd →
        resolvePyPath env p = some rp →
        (rd = rp ∨ strictlyLeads rd rp = true) →
        keepDirLoop env p t? l = true := by
  intro l
  induction l with
  | nil =>
    intro d hd
    exact absurd hd (List.not_mem_nil d)
  | cons a rest ih =>
    intro d hd rd rp h1 h2 h3
    rcases List.mem_cons.mp hd with rfl | hdr
    · simp only [keepDirLoop, h1, h2]
      rcases h3 with heq | hs
      · subst heq
        simp
      · simp [hs]
    · have htail := ih d hdr rd rp h1 h2 h3
      simp only [keepDirLoop]
      cases hka : resolveKeepEntry env t? a with
      | none => exact htail
      | some k =>
        rw [h2]
        by_cases hc : (strictlyLeads k rp || rp == k) = true
        · simp [hc]
        · rw [Bool.not_eq_true] at hc
          simp [hc, htail]

theorem keepDirLoop_skip (env : ResolveEnv) (p : PyPath)
    (t? : Option (List String)) {bad : PyPath}
    (hbad : resolveKeepEntry env t? bad = none) :
    ∀ (pre post : List PyPath),
      keepDirLoop env p t? (pre ++ bad :: post) =
      keepDirLoop env p t? (pre ++ post) := by
  intro pre
  induction pre with
  | nil =>
    intro post
    simp only [List.nil_append, keepDirLoop, hbad]
  | cons a pre ih =>
    intro post
    simp only [List.cons_append, keepDirLoop]
    cases hka : resolveKeepEntry env t? a with
    | none => exact ih post
    | some k =>
      cases hp : resolvePyPath env p with
      | none => exact ih post
      | some f =>
        by_cases hc : (strictlyLeads k f || f == k) = true
        · simp [hc]
        · rw [Bool.not_eq_true] at hc
          simp [hc, ih post]

/-! Shape of a whole run, projection by projection. -/

theorem delete_files_except_fs_pos (env : ResolveEnv) (fs : FS)
    (target : List String) (kf : List String) (kd : List PyPath) (dry : Bool)
    (hex : target ∈ fs.dirs ∨ target ∈ fs.files) :
    (delete_files_except env fs target kf kd dry).fs =
      (deleteDirsPass (keepsDirPath env kd target) dry
        (deleteFilesPass (keepsFilePath env kf kd target) dry fs
          (filesUnder fs target)).fs
        (dirsBottomUp
          (deleteFilesPass (keepsFilePath env kf kd target) dry fs
            (filesUnder fs target)).fs target)).fs := by
  unfold delete_files_except
  rw [if_pos hex]

theorem delete_files_except_deletedFiles_pos (env : ResolveEnv) (fs : FS)
    (target : List String) (kf : List String) (kd : List PyPath) (dry : Bool)
    (hex : target ∈ fs.dirs ∨ target ∈ fs.files) :
    (delete_files_except env fs target kf kd dry).deletedFiles =
      (deleteFilesPass (keepsFilePath env kf kd target) dry fs
        (filesUnder fs target)).deleted := by
  unfold delete_files_except
  rw [if_pos hex]

theorem delete_files_except_deletedDirs_pos (env : ResolveEnv) (fs : FS)
    (target : List String) (kf : List String) (kd : List PyPath) (dry : Bool)
    (hex : target ∈ fs.dirs ∨ target ∈ fs.files) :
    (delete_files_except env fs target kf kd dry).deletedDirs =
      (deleteDirsPass (keepsDirPath env kd target) dry
        (deleteFilesPass (keepsFilePath env kf kd target) dry fs
          (filesUnder fs target)).fs
        (dirsBottomUp
          (deleteFilesPass (keepsFilePath env kf kd target) dry fs
            (filesUnder fs target)).fs target)).deleted := by
  unfold delete_files_except
  rw [if_pos hex]

theorem delete_files_except_fs_neg (env : ResolveEnv) (fs : FS)
    (target : List String) (kf : List String) (kd : List PyPath) (dry : Bool)
    (hex : ¬(target ∈ fs.dirs ∨ target ∈ fs.files)) :
    (delete_files_except env fs target kf kd dry).fs = fs := by
  unfold delete_files_except
  rw [if_neg hex]

theorem delete_files_except_deletedFiles_neg (env : ResolveEnv) (fs : FS)
    (target : List String) (kf : List String) (kd : List PyPath) (dry : Bool)
    (hex : ¬(target ∈ fs.dirs ∨ target ∈ fs.files)) :
    (delete_files_except env fs target kf kd dry).deletedFiles = [] := by
  unfold delete_files_except
  rw [if_neg hex]

theorem delete_files_except_deletedDirs_neg (env : ResolveEnv) (fs : FS)
    (target : List String) (kf : List String) (kd : List PyPath) (dry : Bool)
    (hex : ¬(target ∈ fs.dirs ∨ target ∈ fs.files)) :
    (delete_files_except env fs target kf kd dry).deletedDirs = [] := by
  unfold delete_files_except
  rw [if_neg hex]

theorem deleteFilesPass_WF (K : List String → Bool) (dry : Bool) :
    ∀ (l : List (List String)) (fs : FS), WF fs →
      WF ((deleteFilesPass K dry fs l).fs) := by
  intro l
  induction l with
  | nil => intro fs hwf; exact hwf
  | cons f rest ih =>
    intro fs hwf
    by_cases h : K f = true
    · rw [deleteFilesPass_cons_kept dry fs rest h]
      exact ih fs hwf
    · rw [Bool.not_eq_true] at h
      cases dry with
      | true =>
        rw [deleteFilesPass_cons_dry fs rest h]
        exact ih fs hwf
      | false =>
        by_cases hm : f ∈ fs.files
        · rw [deleteFilesPass_cons_del rest h hm]
          exact ih (removeFile fs f) (WF_removeFile f hwf)
        · rw [deleteFilesPass_cons_err rest h hm]
          exact ih fs hwf

/-! The claims. -/

/-- Claim C1: in every run of delete_files_except (dry-run or not) over a
well-formed filesystem, directories are only removed when the emptiness
recheck succeeds, so no entry of the resulting filesystem lies strictly
below a deleted directory: a non-empty, non-kept directory is skipped. -/
theorem claim_C1 (env : ResolveEnv) (fs : FS) (target : List String)
    (kf : List String) (kd : List PyPath) (dry : Bool) (hwf : WF fs) :
    ∀ d ∈ (delete_files_except env fs target kf kd dry).deletedDirs,
      ∀ e, (e ∈ (delete_files_except env fs target kf kd dry).fs.files ∨
            e ∈ (delete_files_except env fs target kf kd dry).fs.dirs) →
        strictlyLeads d e = false := by
  by_cases hex : target ∈ fs.dirs ∨ target ∈ fs.files
  · rw [delete_files_except_deletedDirs_pos env fs target kf kd dry hex,
      delete_files_except_fs_pos env fs target kf kd dry hex]
    exact deleteDirsPass_deleted_no_strict (keepsDirPath env kd target) dry
      (dirsBottomUp (deleteFilesPass (keepsFilePath env kf kd target) dry fs
        (filesUnder fs target)).fs target)
      (deleteFilesPass (keepsFilePath env kf kd target) dry fs
        (filesUnder fs target)).fs
      (deleteFilesPass_WF (keepsFilePath env kf kd target) dry
        (filesUnder fs target) fs hwf)
  · rw [delete_files_except_deletedDirs_neg env fs target kf kd dry hex]
    intro d hd
    exact absurd hd (List.not_mem_nil d)

/-- Witness for claim C1 at scenario 1's tree. -/
theorem claim_C1_witness :
    WF fs0 ∧
    (∀ d ∈ (delete_files_except env0 fs0 ["t"] ["A.txt"] [] false).deletedDirs,
      ∀ e, (e ∈ (delete_files_except env0 fs0 ["t"] ["A.txt"] [] false).fs.files ∨
            e ∈ (delete_files_except env0 fs0 ["t"] ["A.txt"] [] false).fs.dirs) →
        strictlyLeads d e = false) :=
  ⟨by decide, claim_C1 env0 fs0 ["t"] ["A.txt"] [] false (by decide)⟩

/-- Claim C2: with dry_run set, delete_files_except performs no filesystem
mutation: the filesystem is returned unchanged and both deletion reports
are empty. -/
theorem claim_C2 (env : ResolveEnv) (fs : FS) (target : List String)
    (kf : List String) (kd : List PyPath) :
    (delete_files_except env fs target kf kd true).fs = fs ∧
    (delete_files_except env fs target kf kd true).deletedFiles = [] ∧
    (delete_files_except env fs target kf kd true).deletedDirs = [] := by
  by_cases hex : target ∈ fs.dirs ∨ target ∈ fs.files
  · obtain ⟨hf1, hf2⟩ := deleteFilesPass_dry_noop (keepsFilePath env kf kd target)
      (filesUnder fs target) fs
    refine ⟨?_, ?_, ?_⟩
    · rw [delete_files_except_fs_pos env fs target kf kd true hex, hf1]
      exact (deleteDirsPass_dry_noop (keepsDirPath env kd target)
        (dirsBottomUp fs target) fs).1
    · rw [delete_files_except_deletedFiles_pos env fs target kf kd true hex]
      exact hf2
    · rw [delete_files_except_deletedDirs_pos env fs target kf kd true hex, hf1]
      exact (deleteDirsPass_dry_noop (keepsDirPath env kd target)
        (dirsBottomUp fs target) fs).2
  · exact ⟨delete_files_except_fs_neg env fs target kf kd true hex,
      delete_files_except_deletedFiles_neg env fs target kf kd true hex,
      delete_files_except_deletedDirs_neg env fs target kf kd true hex⟩

/-- Claim C3: the retention predicate keeps a path as soon as some entry
of keep_dirs, after re-basing relative entries on the target directory
and resolving both it and the input path, equals the resolved input path
or is a strict ancestor of it at any depth. -/
theorem claim_C3 (env : ResolveEnv) (p : PyPath) (kf : List String)
    (kd : List PyPath) (t : List String) (d : PyPath) (rd rp : List String)
    (hd : d ∈ kd)
    (h1 : resolveKeepEntry env (some t) d = some rd)
    (h2 : resolvePyPath env p = some rp)
    (h3 : rd = rp ∨ strictlyLeads rd rp = true) :
    should_keep_file env p kf kd (some t) = true := by
  unfold should_keep_file
  by_cases hn : baseName p ∈ kf
  · rw [if_pos hn]
  · rw [if_neg hn]
    exact keepDirLoop_of_match env p (some t) kd d hd rd rp h1 h2 h3

/-- Witness for claim C3: a relative keep-directory entry docs kept the
deeper path /t/docs/x.txt. -/
theorem claim_C3_witness :
    (⟨false, ["docs"]⟩ : PyPath) ∈ [(⟨false, ["docs"]⟩ : PyPath)] ∧
    resolveKeepEntry env0 (some ["t"]) ⟨false, ["docs"]⟩ = some ["t", "docs"] ∧
    resolvePyPath env0 (absPath ["t", "docs", "x.txt"]) =
      some ["t", "docs", "x.txt"] ∧
    should_keep_file env0 (absPath ["t", "docs", "x.txt"]) []
      [⟨false, ["docs"]⟩] (some ["t"]) = true :=
  ⟨by decide, by decide, by decide,
    claim_C3 env0 (absPath ["t", "docs", "x.txt"]) [] [⟨false, ["docs"]⟩]
      ["t"] ⟨false, ["docs"]⟩ ["t", "docs"] ["t", "docs", "x.txt"]
      (by decide) (by decide) (by decide) (Or.inr (by decide))⟩

/-- Claim C4: a path whose base name is in keep_files is kept, for every
keep_dirs list, every resolution environment and every target, so the
name rule decides before the directory-containment rule is consulted. -/
theorem claim_C4 (env : ResolveEnv) (p : PyPath) (kf : List String)
    (kd : List PyPath) (t? : Option (List String))
    (h : baseName p ∈ kf) :
    should_keep_file env p kf kd t? = true := by
  unfold should_keep_file
  rw [if_pos h]

/-- Witness for claim C4: the name rule fires even alongside a
keep-directory entry whose resolution would raise. -/
theorem claim_C4_witness :
    baseName (absPath ["x", "A.txt"]) ∈ ["A.txt"] ∧
    should_keep_file envBad (absPath ["x", "A.txt"]) ["A.txt"]
      [absPath ["bad"]] none = true :=
  ⟨by decide,
    claim_C4 envBad (absPath ["x", "A.txt"]) ["A.txt"] [absPath ["bad"]]
      none (by decide)⟩

/-- Counterexample to claim C5 as stated: in the dry run over scenario
1's tree, the directory sub/ is never logged as a deletion candidate,
because dry-run mode left sub/C.txt in place and the emptiness recheck
therefore finds sub/ non-empty and skips it. -/
theorem claim_C5_cex :
    LogEvent.dirCandidate ["t", "sub"] ∉
      (delete_files_except env0 fs0 ["t"] ["A.txt"] [] true).log := by
  decide

/-- Claim C5 (amended): the dry run over scenario 1's tree logs deletion
candidates exactly for B.txt and sub/C.txt and no directory candidate —
sub/ is skipped as still non-empty — and the filesystem is unchanged. -/
theorem claim_C5 :
    (delete_files_except env0 fs0 ["t"] ["A.txt"] [] true).log =
      [LogEvent.fileCandidate ["t", "B.txt"],
       LogEvent.fileCandidate ["t", "sub", "C.txt"]] ∧
    (delete_files_except env0 fs0 ["t"] ["A.txt"] [] true).fs = fs0 := by
  decide

/-- Claim C6: running delete_files_except twice in succession with
identical arguments (non-dry-run) gives a second run that deletes no
file and no directory and leaves the filesystem where the first run left
it. -/
theorem claim_C6 (env : ResolveEnv) (fs : FS) (target : List String)
    (kf : List String) (kd : List PyPath) :
    (delete_files_except env (delete_files_except env fs target kf kd false).fs
      target kf kd false).deletedFiles = [] ∧
    (delete_files_except env (delete_files_except env fs target kf kd false).fs
      target kf kd false).deletedDirs = [] ∧
    (delete_files_except env (delete_files_except env fs target kf kd false).fs
      target kf kd false).fs =
      (delete_files_except env fs target kf kd false).fs := by
  by_cases hex : target ∈ fs.dirs ∨ target ∈ fs.files
  · rw [delete_files_except_fs_pos env fs target kf kd false hex]
    set fs1 := (deleteFilesPass (keepsFilePath env kf kd target) false fs
      (filesUnder fs target)).fs with hfs1
    set ffinal := (deleteDirsPass (keepsDirPath env kd target) false fs1
      (dirsBottomUp fs1 target)).fs with hffinal
    have htfs1dirs : fs1.dirs = fs.dirs := deleteFilesPass_fs_dirs _ false _ _
    have hA : target ∈ ffinal.dirs ∨ target ∈ ffinal.files := by
      rcases hex with hdir | hfile
      · refine Or.inl ?_
        rw [hffinal]
        refine deleteDirsPass_survives _ false _ _ target ?_ ?_
        · rw [htfs1dirs]
          exact hdir
        · intro hc
          have h2 := (mem_dirsBottomUp.mp hc).2
          rw [strictlyLeads_irrefl] at h2
          exact Bool.false_ne_true h2
      · refine Or.inr ?_
        rw [hffinal, deleteDirsPass_fs_files, hfs1]
        refine deleteFilesPass_survives _ false _ _ target hfile ?_
        intro hc
        have h2 := (mem_filesUnder.mp hc).2
        rw [strictlyLeads_irrefl] at h2
        exact Bool.false_ne_true h2
    rw [delete_files_except_deletedFiles_pos env ffinal target kf kd false hA,
      delete_files_except_deletedDirs_pos env ffinal target kf kd false hA,
      delete_files_except_fs_pos env ffinal target kf kd false hA]
    have hkept : ∀ f ∈ ffinal.files, strictlyLeads target f = true →
        keepsFilePath env kf kd target f = true := by
      have hfe : ffinal.files = fs1.files := by
        rw [hffinal]
        exact deleteDirsPass_fs_files _ false _ _
      rw [hfe, hfs1]
      exact deleteFilesPass_kept_survivors _ target (filesUnder fs target) fs
        (fun f hf hU => Or.inr (mem_filesUnder.mpr ⟨hf, hU⟩))
    have hfnoop : deleteFilesPass (keepsFilePath env kf kd target) false ffinal
        (filesUnder ffinal target) = ⟨ffinal, [], []⟩ :=
      deleteFilesPass_noop _ false _ _
        (fun f hf => hkept f (mem_filesUnder.mp hf).1 (mem_filesUnder.mp hf).2)
    have hfnoop_fs : (deleteFilesPass (keepsFilePath env kf kd target) false
        ffinal (filesUnder ffinal target)).fs = ffinal := by
      rw [hfnoop]
    have hfnoop_del : (deleteFilesPass (keepsFilePath env kf kd target) false
        ffinal (filesUnder ffinal target)).deleted = [] := by
      rw [hfnoop]
    rw [hfnoop_del, hfnoop_fs]
    have hall : ∀ d ∈ dirsBottomUp ffinal target,
        keepsDirPath env kd target d = true ∨
        (d ∈ ffinal.dirs → isEmptyDir ffinal d = false) := by
      intro d hd
      by_cases hk : keepsDirPath env kd target d = true
      · exact Or.inl hk
      · rw [Bool.not_eq_true] at hk
        refine Or.inr (fun hdmem => ?_)
        have hstrict := (mem_dirsBottomUp.mp hd).2
        have hdmem1 : d ∈ fs1.dirs := by
          rw [hffinal] at hdmem
          exact deleteDirsPass_dirs_subset _ false _ _ hdmem
        have hdl2 : d ∈ dirsBottomUp fs1 target :=
          mem_dirsBottomUp.mpr ⟨hdmem1, hstrict⟩
        rw [hffinal]
        rw [hffinal] at hdmem
        exact deleteDirsPass_nonkept_nonempty (keepsDirPath env kd target)
          (dirsBottomUp fs1 target) (dirsBottomUp_sorted fs1 target) fs1 d
          hdl2 hk hdmem
    obtain ⟨hd1, hd2⟩ := deleteDirsPass_noop (keepsDirPath env kd target) false
      (dirsBottomUp ffinal target) ffinal hall
    exact ⟨rfl, hd2, hd1⟩
  · rw [delete_files_except_fs_neg env fs target kf kd false hex]
    exact ⟨delete_files_except_deletedFiles_neg env fs target kf kd false hex,
      delete_files_except_deletedDirs_neg env fs target kf kd false hex,
      delete_files_except_fs_neg env fs target kf kd false hex⟩

/-- Claim C7: when the target path does not exist the run aborts before
any traversal: the filesystem is unchanged, both deletion reports are
empty, and only the missing-target message is logged. -/
theorem claim_C7 (env : ResolveEnv) (fs : FS) (target : List String)
    (kf : List String) (kd : List PyPath) (dry : Bool)
    (h1 : target ∉ fs.dirs) (h2 : target ∉ fs.files) :
    delete_files_except env fs target kf kd dry =
      ⟨fs, [], [], [.targetMissing]⟩ := by
  unfold delete_files_except
  rw [if_neg (not_or.mpr ⟨h1, h2⟩)]

/-- Witness for claim C7 at a target absent from scenario 1's tree. -/
theorem claim_C7_witness :
    ["zzz"] ∉ fs0.dirs ∧ ["zzz"] ∉ fs0.files ∧
    delete_files_except env0 fs0 ["zzz"] [] [] false =
      ⟨fs0, [], [], [.targetMissing]⟩ :=
  ⟨by decide, by decide,
    claim_C7 env0 fs0 ["zzz"] [] [] false (by decide) (by decide)⟩

/-- Claim C8: every failing configuration load returns empty keep-lists
together with its logged message, and a run whose --config path is
missing proceeds using exactly the CLI-supplied keep-lists. -/
theorem claim_C8 :
    (load_config_file .missing = (([], []), .notFoundMsg) ∧
     load_config_file .malformed = (([], []), .parseErrMsg) ∧
     load_config_file .readErr = (([], []), .readErrMsg)) ∧
    ∀ (env : ResolveEnv) (fs : FS) (target : List String) (dry : Bool),
      mainRun env fs target ["A.txt"] [] (some .missing) dry =
        delete_files_except env fs target ["A.txt"] [] dry := by
  refine ⟨⟨rfl, rfl, rfl⟩, ?_⟩
  intro env fs target dry
  unfold mainRun mainKeepLists load_config_file
  simp

/-- Claim C9: a keep-directory entry whose resolution raises is skipped
silently: the predicate evaluates exactly as if the entry were absent,
so it never aborts and never masks a later entry. -/
theorem claim_C9 (env : ResolveEnv) (p : PyPath) (kf : List String)
    (t? : Option (List String)) (bad : PyPath)
    (hbad : resolveKeepEntry env t? bad = none)
    (pre post : List PyPath) :
    should_keep_file env p kf (pre ++ bad :: post) t? =
      should_keep_file env p kf (pre ++ post) t? := by
  unfold should_keep_file
  by_cases hn : baseName p ∈ kf
  · rw [if_pos hn, if_pos hn]
  · rw [if_neg hn, if_neg hn]
    exact keepDirLoop_skip env p t? hbad pre post

/-- Witness for claim C9: an erroring entry before a matching entry does
not change the predicate's value. -/
theorem claim_C9_witness :
    resolveKeepEntry envBad (some ["t"]) (absPath ["bad"]) = none ∧
    should_keep_file envBad (absPath ["t", "docs", "f.txt"]) []
        ([] ++ absPath ["bad"] :: [absPath ["t", "docs"]]) (some ["t"]) =
      should_keep_file envBad (absPath ["t", "docs", "f.txt"]) []
        ([] ++ [absPath ["t", "docs"]]) (some ["t"]) :=
  ⟨by decide,
    claim_C9 envBad (absPath ["t", "docs", "f.txt"]) [] (some ["t"])
      (absPath ["bad"]) (by decide) [] [absPath ["t", "docs"]]⟩

/-- Claim C10: the target directory is never deleted by any run: the walk
yields only strict descendants of the target, so after every run the
target is still a directory of the filesystem. -/
theorem claim_C10 (env : ResolveEnv) (fs : FS) (target : List String)
    (kf : List String) (kd : List PyPath) (dry : Bool)
    (h : target ∈ fs.dirs) :
    target ∈ (delete_files_except env fs target kf kd dry).fs.dirs := by
  have hex : target ∈ fs.dirs ∨ target ∈ fs.files := Or.inl h
  rw [delete_files_except_fs_pos env fs target kf kd dry hex]
  have h1 : target ∈ (deleteFilesPass (keepsFilePath env kf kd target) dry fs
      (filesUnder fs target)).fs.dirs := by
    rw [deleteFilesPass_fs_dirs]
    exact h
  refine deleteDirsPass_survives (keepsDirPath env kd target) dry _ _ target h1 ?_
  intro hc
  have h2 := (mem_dirsBottomUp.mp hc).2
  rw [strictlyLeads_irrefl] at h2
  exact Bool.false_ne_true h2

/-- Witness for claim C10: scenario 1's target survives a full deleting
run with empty keep-lists. -/
theorem claim_C10_witness :
    ["t"] ∈ fs0.dirs ∧
    ["t"] ∈ (delete_files_except env0 fs0 ["t"] [] [] false).fs.dirs :=
  ⟨by decide, claim_C10 env0 fs0 ["t"] [] [] false (by decide)⟩

end FileCleanup
